import Mathlib

/-!
Verification of the consolidation subsystem of the `corpora` repository.

The Python source is shallowly embedded as follows.

* Python floats (confidence and axis scores, which the data model constrains
  to [0,1]) are modelled as exact rationals (`ℚ`); Python `round(x, 2)` is
  modelled as round-half-to-even on the exact rational value, scaled by 100.
* Python dicts are modelled as association lists in insertion order
  (`List (String × _)`); Python sets of strings as `Finset String`.
* Python `None`/exceptions are modelled with `Option`/`Except`.
* Wall-clock data (`processed_at`, `last_updated`, `duration_seconds`) and
  file I/O (reading, JSON serialisation, `save`, `backup_and_write`) are
  outside the model; external collaborators (parser, extractor, classifier,
  hashing) are abstracted as function parameters.

Each embedded definition is named after the source symbol it translates
(`src/corpora/output/merger.py`, `consolidator.py`, `manifest.py`,
`src/corpora/ip/blocklist.py`, `src/corpora/batch/processor.py`).
-/

/- ### Rounding: model of Python `round(x, 2)` on exact rationals -/

/-- Floor of a rational, computed from numerator and denominator (kernel-reducible,
unlike the `⌊·⌋` of the `FloorRing` instance). -/
def ratFloor (q : ℚ) : ℤ := q.num / q.den

theorem ratFloor_eq_floor (q : ℚ) : ratFloor q = ⌊q⌋ := (Rat.floor_def).symm

/-- Round a rational to the nearest integer, ties to even: the rounding mode of
Python `round`. -/
def rnd (x : ℚ) : ℤ :=
  if x - (ratFloor x : ℚ) < 1/2 then ratFloor x
  else if 1/2 < x - (ratFloor x : ℚ) then ratFloor x + 1
  else (if ratFloor x % 2 = 0 then ratFloor x else ratFloor x + 1)

/-- Model of Python `round(x, 2)`. -/
def round2 (x : ℚ) : ℚ := (rnd (100 * x) : ℚ) / 100

theorem floor_le_rnd (x : ℚ) : ⌊x⌋ ≤ rnd x := by
  unfold rnd
  rw [ratFloor_eq_floor]
  split
  · exact le_refl _
  · split
    · exact Int.le.intro 1 rfl
    · split
      · exact le_refl _
      · exact Int.le.intro 1 rfl

theorem rnd_le_floor_add_one (x : ℚ) : rnd x ≤ ⌊x⌋ + 1 := by
  unfold rnd
  rw [ratFloor_eq_floor]
  split
  · exact Int.le.intro 1 rfl
  · split
    · exact le_refl _
    · split
      · exact Int.le.intro 1 rfl
      · exact le_refl _

theorem le_rnd_of_intCast_le (k : ℤ) (x : ℚ) (h : (k : ℚ) ≤ x) : k ≤ rnd x :=
  le_trans (Int.le_floor.mpr h) (floor_le_rnd x)

theorem rnd_le_of_le_intCast (x : ℚ) (k : ℤ) (h : x ≤ (k : ℚ)) : rnd x ≤ k := by
  rcases eq_or_lt_of_le (Int.floor_le_floor h) with heq | hlt
  · -- ⌊x⌋ = ⌊k⌋ = k, hence x = k exactly and the fractional part is 0
    rw [Int.floor_intCast] at heq
    have hxk : x = (k : ℚ) := le_antisymm h (by
      have := Int.floor_le x
      rw [heq] at this
      exact this)
    subst hxk
    unfold rnd
    rw [ratFloor_eq_floor, Int.floor_intCast, sub_self]
    norm_num
  · rw [Int.floor_intCast] at hlt
    calc rnd x ≤ ⌊x⌋ + 1 := rnd_le_floor_add_one x
    _ ≤ k := by omega

theorem rnd_nonneg (x : ℚ) (h : 0 ≤ x) : 0 ≤ rnd x :=
  le_rnd_of_intCast_le 0 x (by exact_mod_cast h)

theorem round2_nonneg (x : ℚ) (h : 0 ≤ x) : 0 ≤ round2 x := by
  unfold round2
  have h100 : (0:ℚ) ≤ 100 * x := by positivity
  have := rnd_nonneg (100 * x) h100
  positivity

theorem round2_le_of_le (x : ℚ) (k : ℤ) (h : x ≤ (k : ℚ) / 100) : round2 x ≤ (k : ℚ) / 100 := by
  unfold round2
  have h1 : 100 * x ≤ (k : ℚ) := by linarith
  have h2 := rnd_le_of_le_intCast (100 * x) k h1
  have h3 : ((rnd (100 * x) : ℤ) : ℚ) ≤ (k : ℚ) := by exact_mod_cast h2
  linarith

theorem le_round2_of_le (k : ℤ) (x : ℚ) (h : (k : ℚ) / 100 ≤ x) : (k : ℚ) / 100 ≤ round2 x := by
  unfold round2
  have h1 : (k : ℚ) ≤ 100 * x := by linarith
  have h2 := le_rnd_of_intCast_le k (100 * x) h1
  have h3 : (k : ℚ) ≤ ((rnd (100 * x) : ℤ) : ℚ) := by exact_mod_cast h2
  linarith

/- ### Data model: `VocabularyEntry` (src/corpora/output/models.py) -/

/-- One classified term, translated field-for-field from the pydantic model
`VocabularyEntry` in `src/corpora/output/models.py`.  The sparse `axes` dict is
an association list; `ip_flag : Optional[str]` is an `Option String`. -/
structure VocabularyEntry where
  id : String
  text : String
  source : String
  genre : String
  intent : String
  pos : String
  axes : List (String × ℚ)
  tags : List String
  category : String
  canonical : String
  mood : String
  energy : String
  confidence : ℚ
  secondary_intents : List String
  ip_flag : Option String
deriving DecidableEq, Inhabited

/-- The 16 fixed axis names (`AXIS_NAMES` in `src/corpora/output/merger.py`). -/
def AXIS_NAMES : List String :=
  ["fire", "water", "earth", "air",
   "light", "shadow", "life", "void",
   "force", "binding", "ward", "sight",
   "mind", "time", "space", "fate"]

/-- Python truthiness of an `Optional[str]`: `None` and `""` are falsy. -/
def truthy : Option String → Bool
  | none => false
  | some s => s != ""

/-- Model of `axes_dict.get(axis, 0.0)` (`_get_axes_dict` collapses the
`AxisScores`-vs-dict distinction; here axes are always an association list). -/
def axesGet (axes : List (String × ℚ)) (a : String) : ℚ :=
  ((axes.find? (fun p => p.1 == a)).map (fun p => p.2)).getD 0

/- ### Merge engine (src/corpora/output/merger.py) -/

/-- First-seen-order deduplication, the `all_sources`/`seen_sources` loop of
`merge_duplicates` (keeps the first occurrence of each element). -/
def dedupFirstAux {α : Type} [DecidableEq α] (seen : List α) : List α → List α
  | [] => []
  | x :: xs => if x ∈ seen then dedupFirstAux seen xs else x :: dedupFirstAux (x :: seen) xs

def dedupFirst {α : Type} [DecidableEq α] (l : List α) : List α := dedupFirstAux [] l

/-- Stable ascending sort on strings, the model of Python `sorted` on a list of
strings (`merged_tags = sorted(list(all_tags))`). -/
def sortStrings (l : List String) : List String :=
  List.insertionSort (fun a b => a ≤ b) l

/-- Stable sort by confidence descending: Python
`sorted(entries, key=lambda e: e.confidence, reverse=True)` (stable, so equal
confidences keep input order). -/
def sortByConfDesc (entries : List VocabularyEntry) : List VocabularyEntry :=
  List.insertionSort (fun a b => b.confidence ≤ a.confidence) entries

/-- Model of `sum(e.confidence for e in entries)`. -/
def totalConfidence (entries : List VocabularyEntry) : ℚ :=
  (entries.map (fun e => e.confidence)).sum

/-- The inner weighted sum of `_merge_axis_scores` for one axis. -/
def weightedAxisSum (entries : List VocabularyEntry) (axis : String) : ℚ :=
  (entries.map (fun e => axesGet e.axes axis * e.confidence)).sum

/-- Translation of `_merge_axis_scores` (`src/corpora/output/merger.py`): confidence-weighted
mean per axis, empty result on zero total confidence, axes with rounded mean
not `> 0` omitted from the sparse map. -/
def mergeAxisScores (entries : List VocabularyEntry) : List (String × ℚ) :=
  if totalConfidence entries = 0 then []
  else AXIS_NAMES.filterMap (fun axis =>
    let avg := round2 (weightedAxisSum entries axis / totalConfidence entries)
    if 0 < avg then some (axis, avg) else none)

/-- The first truthy `ip_flag` in input order (the `for entry in entries:
if entry.ip_flag: ... break` loop). -/
def firstIpFlag (entries : List VocabularyEntry) : Option String :=
  entries.findSome? (fun e => if truthy e.ip_flag then e.ip_flag else none)

/-- The multi-entry branch of `merge_duplicates` (`len(entries) != 1`):
base = highest-confidence entry after a stable descending sort, sources joined
first-seen, tags a sorted union, axes the weighted mean, confidence the
rounded arithmetic mean, ip_flag the first truthy flag. -/
def mergeCore (entries : List VocabularyEntry) : VocabularyEntry :=
  let base := (sortByConfDesc entries).headI
  { id := base.id
    text := base.text
    source := String.intercalate "; " (dedupFirst (entries.map (fun e => e.source)))
    genre := base.genre
    intent := base.intent
    pos := base.pos
    axes := mergeAxisScores entries
    tags := sortStrings (dedupFirst (entries.flatMap (fun e => e.tags)))
    category := base.category
    canonical := base.canonical
    mood := base.mood
    energy := base.energy
    confidence := round2 (totalConfidence entries / entries.length)
    secondary_intents := base.secondary_intents
    ip_flag := firstIpFlag entries }

/-- Translation of `merge_duplicates` (`src/corpora/output/merger.py`).  On the empty list the
Python function raises (`sorted_entries[0]` index error, division by zero);
that failure is modelled as `none`. -/
def mergeDuplicates : List VocabularyEntry → Option VocabularyEntry
  | [] => none
  | [e] => some e
  | e₁ :: e₂ :: rest => some (mergeCore (e₁ :: e₂ :: rest))

/- ### Basic lemmas about the merger's helper functions -/

theorem mem_dedupFirstAux {α : Type} [DecidableEq α] (seen : List α) (l : List α) (y : α) :
    y ∈ dedupFirstAux seen l ↔ y ∈ l ∧ y ∉ seen := by
  induction l generalizing seen with
  | nil => simp [dedupFirstAux]
  | cons x xs ih =>
    simp only [dedupFirstAux]
    by_cases hx : x ∈ seen
    · rw [if_pos hx, ih]
      constructor
      · rintro ⟨h1, h2⟩
        exact ⟨List.mem_cons_of_mem _ h1, h2⟩
      · rintro ⟨hy, hns⟩
        rcases List.mem_cons.mp hy with rfl | hy2
        · exact absurd hx hns
        · exact ⟨hy2, hns⟩
    · rw [if_neg hx]
      constructor
      · intro hy
        rcases List.mem_cons.mp hy with rfl | hy2
        · exact ⟨List.mem_cons_self _ _, hx⟩
        · obtain ⟨h1, h2⟩ := (ih (x :: seen)).mp hy2
          exact ⟨List.mem_cons_of_mem _ h1, fun hs => h2 (List.mem_cons_of_mem _ hs)⟩
      · rintro ⟨hy, hns⟩
        rcases List.mem_cons.mp hy with rfl | hy2
        · exact List.mem_cons_self _ _
        · by_cases hyx : y = x
          · subst hyx
            exact List.mem_cons_self _ _
          · refine List.mem_cons_of_mem _ ((ih (x :: seen)).mpr ⟨hy2, fun hs => ?_⟩)
            rcases List.mem_cons.mp hs with h | h
            · exact hyx h
            · exact hns h

theorem mem_dedupFirst {α : Type} [DecidableEq α] (l : List α) (y : α) :
    y ∈ dedupFirst l ↔ y ∈ l := by
  rw [dedupFirst, mem_dedupFirstAux]
  simp

theorem nodup_dedupFirstAux {α : Type} [DecidableEq α] (seen : List α) (l : List α) :
    (dedupFirstAux seen l).Nodup := by
  induction l generalizing seen with
  | nil => simp [dedupFirstAux]
  | cons x xs ih =>
    simp only [dedupFirstAux]
    split
    · exact ih seen
    · refine List.nodup_cons.mpr ⟨fun hx => ?_, ih _⟩
      rw [mem_dedupFirstAux] at hx
      exact hx.2 (List.mem_cons_self x seen)

theorem nodup_dedupFirst {α : Type} [DecidableEq α] (l : List α) : (dedupFirst l).Nodup :=
  nodup_dedupFirstAux [] l

theorem dedupFirst_perm_of_perm {α : Type} [DecidableEq α] {a b : List α} (h : a.Perm b) :
    (dedupFirst a).Perm (dedupFirst b) := by
  rw [List.perm_ext_iff_of_nodup (nodup_dedupFirst a) (nodup_dedupFirst b)]
  intro y
  rw [mem_dedupFirst, mem_dedupFirst]
  exact h.mem_iff

theorem sortStrings_eq_of_perm {a b : List String} (h : a.Perm b) :
    sortStrings a = sortStrings b := by
  refine List.eq_of_perm_of_sorted
    ((List.perm_insertionSort _ a).trans (h.trans (List.perm_insertionSort _ b).symm))
    (List.sorted_insertionSort _ a) (List.sorted_insertionSort _ b)

theorem totalConfidence_perm {l₁ l₂ : List VocabularyEntry} (h : l₁.Perm l₂) :
    totalConfidence l₁ = totalConfidence l₂ :=
  (h.map _).sum_eq

theorem weightedAxisSum_perm {l₁ l₂ : List VocabularyEntry} (h : l₁.Perm l₂) (axis : String) :
    weightedAxisSum l₁ axis = weightedAxisSum l₂ axis :=
  (h.map _).sum_eq

theorem mergeAxisScores_perm {l₁ l₂ : List VocabularyEntry} (h : l₁.Perm l₂) :
    mergeAxisScores l₁ = mergeAxisScores l₂ := by
  unfold mergeAxisScores
  rw [totalConfidence_perm h]
  simp only [weightedAxisSum_perm h]

theorem mergedTags_perm {l₁ l₂ : List VocabularyEntry} (h : l₁.Perm l₂) :
    sortStrings (dedupFirst (l₁.flatMap (fun e => e.tags))) =
      sortStrings (dedupFirst (l₂.flatMap (fun e => e.tags))) := by
  refine sortStrings_eq_of_perm (dedupFirst_perm_of_perm ?_)
  rw [List.flatMap_def, List.flatMap_def]
  exact (h.map _).flatten

/- ### Claim theorems about the merge engine -/

/-- C9: for every single entry `e`, `merge_duplicates([e])` returns `e` itself
unchanged (the `len(entries) == 1` early return). -/
theorem merge_singleton_identity (e : VocabularyEntry) : mergeDuplicates [e] = some e := rfl

/-- C10: `merge_duplicates` fails exactly on the empty input (index error and
zero division in Python, modelled as `none`); on every non-empty input every
failure branch is unreachable and a merged entry is produced. -/
theorem merge_empty_partiality (l : List VocabularyEntry) :
    (mergeDuplicates l).isSome = true ↔ l ≠ [] := by
  cases l with
  | nil => simp [mergeDuplicates]
  | cons a t => cases t <;> simp [mergeDuplicates]

/-- A concrete entry used in counterexamples and witnesses. -/
def entA : VocabularyEntry :=
  { id := "src-fireball", text := "Fireball", source := "doc1", genre := "fantasy",
    intent := "offensive", pos := "noun", axes := [], tags := [], category := "spell",
    canonical := "fireball", mood := "arcane", energy := "", confidence := 1/2,
    secondary_intents := [], ip_flag := none }

def entB : VocabularyEntry := { entA with id := "src-fireball-2", source := "doc2" }

/-- C1 counterexample: two entries with equal confidence and distinct sources;
swapping the input order changes the merged `source` field ("doc1; doc2" vs
"doc2; doc1"), so `merge_duplicates` is not invariant under permutation. -/
theorem merge_permutation_cex :
    mergeDuplicates [entA, entB] ≠ mergeDuplicates [entB, entA] := by
  intro h
  have h2 := congrArg (Option.map (fun e => e.source)) h
  have ha : Option.map (fun e => e.source) (mergeDuplicates [entA, entB]) = some "doc1; doc2" := rfl
  have hb : Option.map (fun e => e.source) (mergeDuplicates [entB, entA]) = some "doc2; doc1" := rfl
  rw [ha, hb] at h2
  exact absurd h2 (by decide)

/-- C1 amended: the order-insensitive parts of the merge.  For any permutation
of the input multiset, the merged `confidence`, `tags` and `axes` coincide
(the full output is order-dependent: `source` joins in first-seen input order,
`ip_flag` takes the first truthy flag, and the base entry follows the stable
sort's tie-break on input position). -/
theorem merge_permutation_parts (l₁ l₂ : List VocabularyEntry) (h : l₁.Perm l₂) :
    (mergeDuplicates l₁).map (fun e => e.confidence) =
        (mergeDuplicates l₂).map (fun e => e.confidence) ∧
      (mergeDuplicates l₁).map (fun e => e.tags) = (mergeDuplicates l₂).map (fun e => e.tags) ∧
      (mergeDuplicates l₁).map (fun e => e.axes) = (mergeDuplicates l₂).map (fun e => e.axes) := by
  cases l₁ with
  | nil =>
    have h2 : l₂ = [] := h.symm.eq_nil
    subst h2
    exact ⟨rfl, rfl, rfl⟩
  | cons a t =>
    cases t with
    | nil =>
      have h2 : l₂ = [a] := List.perm_singleton.mp h.symm
      subst h2
      exact ⟨rfl, rfl, rfl⟩
    | cons b t' =>
      have hlen := h.length_eq
      cases l₂ with
      | nil => simp at hlen
      | cons c s =>
        cases s with
        | nil => simp at hlen
        | cons d s' =>
          simp only [mergeDuplicates, Option.map_some']
          refine ⟨?_, ?_, ?_⟩
          · show some (mergeCore (a :: b :: t')).confidence =
                some (mergeCore (c :: d :: s')).confidence
            simp only [mergeCore]
            rw [totalConfidence_perm h, h.length_eq]
          · show some (mergeCore (a :: b :: t')).tags = some (mergeCore (c :: d :: s')).tags
            simp only [mergeCore]
            rw [mergedTags_perm h]
          · show some (mergeCore (a :: b :: t')).axes = some (mergeCore (c :: d :: s')).axes
            simp only [mergeCore]
            rw [mergeAxisScores_perm h]

/-- Witness for C1's amended theorem at the concrete swapped pair. -/
theorem merge_permutation_parts_witness :
    (mergeDuplicates [entA, entB]).map (fun e => e.confidence) =
        (mergeDuplicates [entB, entA]).map (fun e => e.confidence) ∧
      (mergeDuplicates [entA, entB]).map (fun e => e.tags) =
        (mergeDuplicates [entB, entA]).map (fun e => e.tags) ∧
      (mergeDuplicates [entA, entB]).map (fun e => e.axes) =
        (mergeDuplicates [entB, entA]).map (fun e => e.axes) :=
  merge_permutation_parts [entA, entB] [entB, entA] (List.Perm.swap entB entA [])

/- ### C4: merged confidence bounds -/

theorem exists_conf_max (l : List VocabularyEntry) (hl : l ≠ []) :
    ∃ a ∈ l, ∀ b ∈ l, b.confidence ≤ a.confidence := by
  induction l with
  | nil => exact absurd rfl hl
  | cons x xs ih =>
    cases xs with
    | nil =>
      refine ⟨x, List.mem_cons_self _ _, fun b hb => ?_⟩
      rcases List.mem_cons.mp hb with rfl | hb2
      · exact le_refl _
      · cases hb2
    | cons y ys =>
      obtain ⟨a, ha, hmax⟩ := ih (by simp)
      rcases le_total a.confidence x.confidence with hcase | hcase
      · refine ⟨x, List.mem_cons_self _ _, fun b hb => ?_⟩
        rcases List.mem_cons.mp hb with rfl | hb2
        · exact le_refl _
        · exact le_trans (hmax b hb2) hcase
      · refine ⟨a, List.mem_cons_of_mem _ ha, fun b hb => ?_⟩
        rcases List.mem_cons.mp hb with rfl | hb2
        · exact hcase
        · exact hmax b hb2

theorem exists_conf_min (l : List VocabularyEntry) (hl : l ≠ []) :
    ∃ a ∈ l, ∀ b ∈ l, a.confidence ≤ b.confidence := by
  induction l with
  | nil => exact absurd rfl hl
  | cons x xs ih =>
    cases xs with
    | nil =>
      refine ⟨x, List.mem_cons_self _ _, fun b hb => ?_⟩
      rcases List.mem_cons.mp hb with rfl | hb2
      · exact le_refl _
      · cases hb2
    | cons y ys =>
      obtain ⟨a, ha, hmin⟩ := ih (by simp)
      rcases le_total x.confidence a.confidence with hcase | hcase
      · refine ⟨x, List.mem_cons_self _ _, fun b hb => ?_⟩
        rcases List.mem_cons.mp hb with rfl | hb2
        · exact le_refl _
        · exact le_trans hcase (hmin b hb2)
      · refine ⟨a, List.mem_cons_of_mem _ ha, fun b hb => ?_⟩
        rcases List.mem_cons.mp hb with rfl | hb2
        · exact hcase
        · exact hmin b hb2

/-- Entries with confidence 0.555, exhibiting the rounding escape. -/
def entC : VocabularyEntry := { entA with confidence := 111/200 }

def entD : VocabularyEntry := { entA with id := "src-fireball-3", source := "doc2", confidence := 111/200 }

/-- C4 counterexample: merging two entries of confidence 0.555 yields merged
confidence `round(0.555, 2) = 0.56`, strictly above the maximum input
confidence, so the claimed interval bound fails for confidences that are not
exact multiples of 0.01. -/
theorem merge_confidence_bounds_cex :
    (mergeDuplicates [entC, entD]).map (fun e => e.confidence) = some (14/25) ∧
      ∀ e ∈ [entC, entD], e.confidence < 14/25 := by
  constructor
  · show some (mergeCore [entC, entD]).confidence = some (14/25)
    simp only [mergeCore]
    norm_num [totalConfidence, entC, entD, entA, round2, rnd, ratFloor]
  · intro e he
    rcases List.mem_cons.mp he with rfl | he2
    · norm_num [entC, entA]
    · rcases List.mem_cons.mp he2 with rfl | he3
      · norm_num [entD, entA]
      · cases he3

/-- C4 amended: for a non-empty input whose confidences are all exact integer
multiples of 0.01, the merged confidence (arithmetic mean rounded to two
decimals) lies within `[min inputs, max inputs]` — stated via attained
bounds: some input is `≤` the merged confidence and some input is `≥` it. -/
theorem merge_confidence_bounds (l : List VocabularyEntry) (hl : l ≠ [])
    (hq : ∀ e ∈ l, ∃ k : ℤ, e.confidence = (k : ℚ) / 100) :
    ∃ m, mergeDuplicates l = some m ∧
      (∃ e ∈ l, e.confidence ≤ m.confidence) ∧ ∃ e ∈ l, m.confidence ≤ e.confidence := by
  cases l with
  | nil => exact absurd rfl hl
  | cons a t =>
    cases t with
    | nil =>
      exact ⟨a, rfl, ⟨a, List.mem_cons_self _ _, le_refl _⟩,
        ⟨a, List.mem_cons_self _ _, le_refl _⟩⟩
    | cons b t' =>
      refine ⟨mergeCore (a :: b :: t'), rfl, ?_, ?_⟩
      all_goals
        have hmc : (mergeCore (a :: b :: t')).confidence =
            round2 (totalConfidence (a :: b :: t') / (a :: b :: t').length) := rfl
        have hlen : (0:ℚ) < ((a :: b :: t').length : ℚ) := by
          have : 0 < (a :: b :: t').length := by simp
          exact_mod_cast this
      · obtain ⟨amin, hamin, hmin⟩ := exists_conf_min (a :: b :: t') (by simp)
        obtain ⟨kmin, hkmin⟩ := hq amin hamin
        refine ⟨amin, hamin, ?_⟩
        rw [hmc, hkmin]
        refine le_round2_of_le kmin _ ?_
        rw [le_div_iff₀ hlen]
        have hsum : ((a :: b :: t').length : ℚ) * amin.confidence ≤
            totalConfidence (a :: b :: t') := by
          have hb : ∀ x ∈ (a :: b :: t').map (fun e => e.confidence), amin.confidence ≤ x := by
            intro x hx
            obtain ⟨e, he, rfl⟩ := List.mem_map.mp hx
            exact hmin e he
          have := List.card_nsmul_le_sum ((a :: b :: t').map (fun e => e.confidence)) _ hb
          rw [List.length_map] at this
          rw [totalConfidence]
          calc ((a :: b :: t').length : ℚ) * amin.confidence
              = (a :: b :: t').length • amin.confidence := by rw [nsmul_eq_mul]
            _ ≤ _ := this
        calc (kmin : ℚ) / 100 * ((a :: b :: t').length : ℚ)
            = ((a :: b :: t').length : ℚ) * amin.confidence := by rw [hkmin]; ring
          _ ≤ totalConfidence (a :: b :: t') := hsum
      · obtain ⟨amax, hamax, hmax⟩ := exists_conf_max (a :: b :: t') (by simp)
        obtain ⟨kmax, hkmax⟩ := hq amax hamax
        refine ⟨amax, hamax, ?_⟩
        rw [hmc, hkmax]
        refine round2_le_of_le _ kmax ?_
        rw [div_le_iff₀ hlen]
        have hsum : totalConfidence (a :: b :: t') ≤
            ((a :: b :: t').length : ℚ) * amax.confidence := by
          have hb : ∀ x ∈ (a :: b :: t').map (fun e => e.confidence), x ≤ amax.confidence := by
            intro x hx
            obtain ⟨e, he, rfl⟩ := List.mem_map.mp hx
            exact hmax e he
          have := List.sum_le_card_nsmul ((a :: b :: t').map (fun e => e.confidence)) _ hb
          rw [List.length_map] at this
          rw [totalConfidence]
          calc ((a :: b :: t').map (fun e => e.confidence)).sum
              ≤ (a :: b :: t').length • amax.confidence := this
            _ = ((a :: b :: t').length : ℚ) * amax.confidence := by rw [nsmul_eq_mul]
        calc totalConfidence (a :: b :: t')
            ≤ ((a :: b :: t').length : ℚ) * amax.confidence := hsum
          _ = (kmax : ℚ) / 100 * ((a :: b :: t').length : ℚ) := by rw [hkmax]; ring

/-- Witness for C4's amended theorem at confidences 0 and 1. -/
def entE : VocabularyEntry := { entA with confidence := 0 }

def entF : VocabularyEntry := { entA with id := "src-fireball-4", source := "doc2", confidence := 1 }

theorem merge_confidence_bounds_witness :
    ∃ m, mergeDuplicates [entE, entF] = some m ∧
      (∃ e ∈ [entE, entF], e.confidence ≤ m.confidence) ∧
        ∃ e ∈ [entE, entF], m.confidence ≤ e.confidence := by
  refine merge_confidence_bounds [entE, entF] (by simp) ?_
  intro e he
  rcases List.mem_cons.mp he with rfl | he2
  · exact ⟨0, by norm_num [entE, entA]⟩
  · rcases List.mem_cons.mp he2 with rfl | he3
    · exact ⟨100, by norm_num [entF, entA]⟩
    · cases he3

/- ### C8: the merged axes map -/

theorem axesGet_nonneg (axes : List (String × ℚ)) (h : ∀ p ∈ axes, 0 ≤ p.2) (a : String) :
    0 ≤ axesGet axes a := by
  unfold axesGet
  cases hf : axes.find? (fun p => p.1 == a) with
  | none => simp
  | some p =>
    simp only [Option.map_some', Option.getD_some]
    exact h p (List.mem_of_find?_eq_some hf)

theorem totalConfidence_nonneg (entries : List VocabularyEntry)
    (h : ∀ e ∈ entries, 0 ≤ e.confidence) : 0 ≤ totalConfidence entries := by
  refine List.sum_nonneg ?_
  intro x hx
  obtain ⟨e, he, rfl⟩ := List.mem_map.mp hx
  exact h e he

theorem weightedAxisSum_nonneg (entries : List VocabularyEntry)
    (hconf : ∀ e ∈ entries, 0 ≤ e.confidence)
    (haxes : ∀ e ∈ entries, ∀ p ∈ e.axes, 0 ≤ p.2) (a : String) :
    0 ≤ weightedAxisSum entries a := by
  refine List.sum_nonneg ?_
  intro x hx
  obtain ⟨e, he, rfl⟩ := List.mem_map.mp hx
  exact mul_nonneg (axesGet_nonneg e.axes (haxes e he) a) (hconf e he)

theorem lookup_filterMap_of_not_mem (names : List String) (g : String → Option ℚ) (a : String)
    (ha : a ∉ names) :
    (names.filterMap (fun x => (g x).map (fun v => (x, v)))).lookup a = none := by
  induction names with
  | nil => rfl
  | cons x xs ih =>
    have hax : a ≠ x := fun h => ha (h ▸ List.mem_cons_self x xs)
    have hxs : a ∉ xs := fun h => ha (List.mem_cons_of_mem _ h)
    rw [List.filterMap_cons]
    have hbeq : (a == x) = false := beq_eq_false_iff_ne.mpr hax
    cases g x with
    | none => exact ih hxs
    | some v =>
      simp only [Option.map_some', List.lookup, hbeq]
      exact ih hxs

theorem lookup_filterMap_of_keyed (names : List String) (g : String → Option ℚ) (a : String)
    (hnd : names.Nodup) (ha : a ∈ names) :
    (names.filterMap (fun x => (g x).map (fun v => (x, v)))).lookup a = g a := by
  induction names with
  | nil => cases ha
  | cons x xs ih =>
    rw [List.filterMap_cons]
    rcases List.mem_cons.mp ha with rfl | hmem
    · have hnx : a ∉ xs := (List.nodup_cons.mp hnd).1
      cases hg : g a with
      | none =>
        simp only [hg, Option.map_none']
        exact lookup_filterMap_of_not_mem xs g a hnx
      | some v =>
        simp only [hg, Option.map_some', List.lookup, beq_self_eq_true]
    · have hax : a ≠ x := fun h => (List.nodup_cons.mp hnd).1 (h ▸ hmem)
      have hbeq : (a == x) = false := beq_eq_false_iff_ne.mpr hax
      cases hg : g x with
      | none =>
        simp only [hg, Option.map_none']
        exact ih (List.nodup_cons.mp hnd).2 hmem
      | some v =>
        simp only [Option.map_some', List.lookup, hbeq]
        exact ih (List.nodup_cons.mp hnd).2 hmem

/-- C8: for a non-empty input with non-negative confidences and axis scores,
`_merge_axis_scores` returns the empty sparse map when total confidence is 0,
and otherwise maps each of the 16 axis names to the confidence-weighted mean
`Σ(axis·conf)/Σ(conf)` rounded to 2 decimals, omitting exactly the axes whose
rounded mean is 0. -/
theorem merge_axes_weighted (entries : List VocabularyEntry) (_hne : entries ≠ [])
    (hconf : ∀ e ∈ entries, 0 ≤ e.confidence)
    (haxes : ∀ e ∈ entries, ∀ p ∈ e.axes, 0 ≤ p.2) :
    (totalConfidence entries = 0 → mergeAxisScores entries = []) ∧
      (totalConfidence entries ≠ 0 → ∀ a ∈ AXIS_NAMES,
        (mergeAxisScores entries).lookup a =
          (if round2 (weightedAxisSum entries a / totalConfidence entries) = 0 then none
           else some (round2 (weightedAxisSum entries a / totalConfidence entries)))) := by
  constructor
  · intro h
    simp [mergeAxisScores, h]
  · intro h a ha
    have htot : (0:ℚ) < totalConfidence entries :=
      lt_of_le_of_ne (totalConfidence_nonneg entries hconf) (Ne.symm h)
    have havg : 0 ≤ round2 (weightedAxisSum entries a / totalConfidence entries) :=
      round2_nonneg _ (div_nonneg (weightedAxisSum_nonneg entries hconf haxes a) htot.le)
    unfold mergeAxisScores
    rw [if_neg h]
    have hfun : (fun axis =>
        let avg := round2 (weightedAxisSum entries axis / totalConfidence entries)
        if 0 < avg then some (axis, avg) else none) =
        (fun axis => ((fun x =>
          if 0 < round2 (weightedAxisSum entries x / totalConfidence entries)
          then some (round2 (weightedAxisSum entries x / totalConfidence entries))
          else none) axis).map (fun v => (axis, v))) := by
      funext axis
      by_cases hc : 0 < round2 (weightedAxisSum entries axis / totalConfidence entries)
      · simp [hc]
      · simp [hc]
    rw [hfun, lookup_filterMap_of_keyed AXIS_NAMES _ a (by decide) ha]
    rcases eq_or_lt_of_le havg with heq | hlt
    · rw [if_neg (by rw [← heq]; exact lt_irrefl 0), if_pos heq.symm]
    · rw [if_pos hlt, if_neg (ne_of_gt hlt)]

/-- Entries exercising the weighted-axes theorem. -/
def entG : VocabularyEntry := { entA with confidence := 1, axes := [("fire", 1)] }

def entH : VocabularyEntry := { entA with id := "src-fireball-5", source := "doc2", confidence := 1, axes := [] }

theorem merge_axes_weighted_witness :
    (totalConfidence [entG, entH] = 0 → mergeAxisScores [entG, entH] = []) ∧
      (totalConfidence [entG, entH] ≠ 0 → ∀ a ∈ AXIS_NAMES,
        (mergeAxisScores [entG, entH]).lookup a =
          (if round2 (weightedAxisSum [entG, entH] a / totalConfidence [entG, entH]) = 0 then none
           else some (round2 (weightedAxisSum [entG, entH] a / totalConfidence [entG, entH])))) := by
  refine merge_axes_weighted [entG, entH] (by simp) ?_ ?_
  · intro e he
    rcases List.mem_cons.mp he with rfl | he2
    · norm_num [entG, entA]
    · rcases List.mem_cons.mp he2 with rfl | he3
      · norm_num [entH, entA]
      · cases he3
  · intro e he p hp
    rcases List.mem_cons.mp he with rfl | he2
    · rcases List.mem_cons.mp hp with rfl | hp2
      · norm_num
      · cases hp2
    · rcases List.mem_cons.mp he2 with rfl | he3
      · cases hp
      · cases he3

/- ### IP blocklist (src/corpora/ip/blocklist.py) -/

/-- Python `str.lower()` (ASCII model). -/
def strLower (s : String) : String := String.mk (s.data.map Char.toLower)

/-- A regex word character (`\w` over the ASCII inputs in scope):
letters, digits, underscore. -/
def wordChar (c : Char) : Bool := c.isAlphanum || c == '_'

/-- Whether position `i` of `s` holds a word character (out of range counts as
non-word). -/
def wordAt (s : List Char) (i : Nat) : Bool :=
  match s[i]? with
  | some c => wordChar c
  | none => false

/-- A `\b` word boundary at position `p` (between `s[p-1]` and `s[p]`):
exactly one side is a word character. -/
def boundaryAt (s : List Char) (p : Nat) : Bool :=
  (if p = 0 then false else wordAt s (p - 1)) != wordAt s p

/-- Model of `re.search` for the compiled pattern
`re.compile(rf"\b{re.escape(t)}\b", re.IGNORECASE)` applied to lowercase text:
some occurrence of the literal `pat` flanked by word boundaries. -/
def reSearch (pat : List Char) (s : List Char) : Bool :=
  (List.range (s.length + 1)).any (fun i =>
    pat.isPrefixOf (s.drop i) && boundaryAt s i && boundaryAt s (i + pat.length))

/-- State of `IPBlocklist` after `load`: franchises in declaration order, each with
its lowercased terms (the source keeps a set for exact lookup and one compiled
pattern per term; both are determined by this list). -/
structure IPBlocklist where
  franchises : List (String × List String)

/-- Translation of `IPBlocklist.load`: store the lowercase of every term, franchise order
preserved. -/
def blocklistLoad (data : List (String × List String)) : IPBlocklist :=
  ⟨data.map (fun p => (p.1, p.2.map strLower))⟩

/-- Translation of `IPBlocklist.check`: first franchise (in declaration order) whose term set
contains the lowercased term or canonical exactly, or one of whose
word-boundary patterns matches either; `none` when nothing matches. -/
def blocklistCheck (bl : IPBlocklist) (term : String) (canonical : String) : Option String :=
  let tl := strLower term
  let cl := strLower canonical
  bl.franchises.findSome? (fun p =>
    if p.2.contains tl || p.2.contains cl then some p.1
    else if p.2.any (fun t => reSearch t.data tl.data || reSearch t.data cl.data) then some p.1
    else none)

/- ### C7: word-boundary semantics -/

theorem wordAt_allWord (s : List Char) (hs : ∀ c ∈ s, wordChar c = true) (i : Nat) :
    wordAt s i = decide (i < s.length) := by
  unfold wordAt
  by_cases hi : i < s.length
  · rw [List.getElem?_eq_getElem hi]
    simp only [hi, decide_eq_true_eq]
    exact hs _ (List.getElem_mem hi)
  · rw [List.getElem?_eq_none (by omega)]
    simp [hi]

theorem boundaryAt_allWord (s : List Char) (hs : ∀ c ∈ s, wordChar c = true) (p : Nat)
    (h : boundaryAt s p = true) : s ≠ [] ∧ (p = 0 ∨ p = s.length) := by
  unfold boundaryAt at h
  by_cases hp : p = 0
  · subst hp
    rw [if_pos rfl, wordAt_allWord s hs] at h
    rcases Nat.eq_zero_or_pos s.length with hlen | hlen
    · simp [hlen] at h
    · exact ⟨fun hnil => by simp [hnil] at hlen, Or.inl rfl⟩
  · rw [if_neg hp, wordAt_allWord s hs, wordAt_allWord s hs] at h
    by_cases h1 : p - 1 < s.length
    · by_cases h2 : p < s.length
      · simp [h1, h2] at h
      · have hlen : 0 < s.length := by omega
        exact ⟨List.ne_nil_of_length_pos hlen, Or.inr (by omega)⟩
    · by_cases h2 : p < s.length
      · omega
      · simp [h1, h2] at h

theorem reSearch_allWord (pat s : List Char) (hs : ∀ c ∈ s, wordChar c = true)
    (hne : pat ≠ []) (h : reSearch pat s = true) : pat = s := by
  unfold reSearch at h
  obtain ⟨i, hi, hcond⟩ := List.any_eq_true.mp h
  rw [Bool.and_eq_true, Bool.and_eq_true] at hcond
  obtain ⟨⟨hpre, hb1⟩, hb2⟩ := hcond
  obtain ⟨hsnil, hb1e⟩ := boundaryAt_allWord s hs i hb1
  obtain ⟨-, hb2e⟩ := boundaryAt_allWord s hs (i + pat.length) hb2
  have hplen : 0 < pat.length := List.length_pos.mpr hne
  have hile : i + pat.length ≤ s.length := by
    have := List.isPrefixOf_iff_prefix.mp hpre
    have hlen := this.length_le
    rw [List.length_drop] at hlen
    have hmem := List.mem_range.mp hi
    omega
  have hi0 : i = 0 := by omega
  have hlen : pat.length = s.length := by omega
  subst hi0
  have hp := List.isPrefixOf_iff_prefix.mp hpre
  rw [List.drop_zero] at hp
  rw [List.prefix_iff_eq_take.mp hp, hlen, List.take_length]

/-- C7 counterexample: a blocklist containing `"sword"` may still flag
`"swordsman"` — when `"swordsman"` itself is also listed — so the claim's
unconditional "does not flag" fails as stated. -/
theorem blocklist_boundary_cex :
    blocklistCheck (blocklistLoad [("x", ["sword", "swordsman"])]) "swordsman" "swordsman" =
      some "x" := by decide

/-- C7 amended: word-boundary semantics of `IPBlocklist.check`.  A blocklist
containing `"sword"` never flags `"swordsman"` provided `"swordsman"` itself is
not listed (and no listed term is empty, since an empty pattern matches
everywhere); a blocklist listing `"mind flayer"` always flags `"Mind Flayer"`,
case-insensitively. -/
theorem blocklist_word_boundary :
    (∀ data : List (String × List String),
      (∃ p ∈ data, "sword" ∈ p.2.map strLower) →
      (∀ p ∈ data, ∀ t ∈ p.2, strLower t ≠ "swordsman" ∧ strLower t ≠ "") →
      blocklistCheck (blocklistLoad data) "swordsman" "swordsman" = none) ∧
    (∀ data : List (String × List String), ∀ canonical : String,
      (∃ p ∈ data, "mind flayer" ∈ p.2.map strLower) →
      blocklistCheck (blocklistLoad data) "Mind Flayer" canonical ≠ none) := by
  constructor
  · intro data _ hno
    simp only [blocklistCheck, blocklistLoad]
    rw [List.findSome?_eq_none_iff]
    intro q hq
    obtain ⟨p, hp, rfl⟩ := List.mem_map.mp hq
    have hsl : strLower "swordsman" = "swordsman" := by decide
    rw [hsl]
    have hnmem : "swordsman" ∉ p.2.map strLower := by
      intro hmem
      obtain ⟨t, ht, hteq⟩ := List.mem_map.mp hmem
      exact (hno p hp t ht).1 hteq
    have hcont : (p.2.map strLower).contains "swordsman" = false := by simpa using hnmem
    rw [hcont]
    simp only [Bool.or_self, Bool.false_eq_true, if_false]
    split
    case isTrue hC =>
      exfalso
      obtain ⟨t', ht', hsearch⟩ := List.any_eq_true.mp hC
      obtain ⟨t, ht, rfl⟩ := List.mem_map.mp ht'
      have hne : (strLower t).data ≠ [] := by
        intro hdata
        exact (hno p hp t ht).2 (String.ext hdata)
      have hor : reSearch (strLower t).data "swordsman".data = true := by
        revert hsearch
        simp only [Bool.or_self]
        exact fun h => h
      have hfull := reSearch_allWord (strLower t).data "swordsman".data (by decide) hne hor
      exact (hno p hp t ht).1 (String.ext hfull)
    case isFalse => rfl
  · intro data canonical hmf h
    obtain ⟨p, hp, hmem⟩ := hmf
    simp only [blocklistCheck, blocklistLoad] at h
    rw [List.findSome?_eq_none_iff] at h
    have hq := h (p.1, p.2.map strLower) (List.mem_map_of_mem _ hp)
    have hsl : strLower "Mind Flayer" = "mind flayer" := by decide
    rw [hsl] at hq
    have hcont : (p.2.map strLower).contains "mind flayer" = true := by simpa using hmem
    rw [hcont] at hq
    simp at hq

/-- Witness for C7's amended theorem at the two concrete blocklists of the
spec's test scenario. -/
theorem blocklist_word_boundary_witness :
    blocklistCheck (blocklistLoad [("dnd", ["sword"])]) "swordsman" "swordsman" = none ∧
      blocklistCheck (blocklistLoad [("dnd", ["mind flayer"])]) "Mind Flayer" "mind flayer" ≠
        none :=
  ⟨blocklist_word_boundary.1 [("dnd", ["sword"])] (by decide) (by decide),
   blocklist_word_boundary.2 [("dnd", ["mind flayer"])] "mind flayer" (by decide)⟩

/- ### Consolidator (src/corpora/output/consolidator.py) -/

/-- Translation of `ConsolidationSummary` (`src/corpora/output/merger.py`): four sets of
canonical forms (Python sets modelled as `Finset String`). -/
structure ConsolidationSummary where
  added : Finset String
  updated : Finset String
  removed : Finset String
  flagged : Finset String
deriving DecidableEq

/-- Drop the `ip_flag` key before comparison, as `_has_changes` does. -/
def eraseIpFlag (e : VocabularyEntry) : VocabularyEntry := { e with ip_flag := none }

/-- The bucket of `by_canonical[c]`: all input entries (concatenated in file
order) whose canonical form is `c`. -/
def bucketFor (inputs : List VocabularyEntry) (c : String) : List VocabularyEntry :=
  inputs.filter (fun e => e.canonical == c)

/-- The keys of `by_canonical` in insertion order (first occurrence of each
canonical form in the concatenated input stream). -/
def bucketCanonicals (inputs : List VocabularyEntry) : List String :=
  dedupFirst (inputs.map (fun e => e.canonical))

/-- Lookup of `existing_entries[c]`: the master dict is built by overwriting, so the last
master entry with canonical `c` wins. -/
def existingFor (master : List VocabularyEntry) (c : String) : VocabularyEntry :=
  (master.reverse.find? (fun e => e.canonical == c)).getD default

/-- The consolidator's optional blocklist pass over a merged entry: attach
`blocklist:<franchise>` only when `check` matches and the merged entry has no
truthy `ip_flag`. -/
def applyBlocklistFlag (bl : Option IPBlocklist) (m : VocabularyEntry) : VocabularyEntry :=
  match bl with
  | none => m
  | some b =>
    match blocklistCheck b m.text m.canonical with
    | some fr => if truthy m.ip_flag then m else { m with ip_flag := some ("blocklist:" ++ fr) }
    | none => m

/-- The merged (and optionally blocklist-flagged) entry for one bucket.  The
bucket is non-empty by construction, so the `getD default` fallback for the
empty-input failure of `merge_duplicates` is never exercised. -/
def mergedBucketEntry (inputs : List VocabularyEntry) (bl : Option IPBlocklist) (c : String) :
    VocabularyEntry :=
  applyBlocklistFlag bl ((mergeDuplicates (bucketFor inputs c)).getD default)

/-- The change-classification part of one iteration of the consolidation loop:
absent canonical goes to `added`, present-and-changed (ignoring `ip_flag`) to
`updated`. -/
def consolidateClassifyStep (inputs master : List VocabularyEntry) (bl : Option IPBlocklist)
    (acc : ConsolidationSummary) (c : String) : ConsolidationSummary :=
  if c ∈ master.map (fun e => e.canonical) then
    (if eraseIpFlag (existingFor master c) ≠ eraseIpFlag (mergedBucketEntry inputs bl c)
     then { acc with updated := insert c acc.updated } else acc)
  else { acc with added := insert c acc.added }

/-- One full iteration of the consolidation loop over a bucket: classify the
change, then add the canonical to `flagged` when the merged entry carries a
truthy `ip_flag`. -/
def consolidateStep (inputs master : List VocabularyEntry) (bl : Option IPBlocklist)
    (acc : ConsolidationSummary) (c : String) : ConsolidationSummary :=
  if truthy (mergedBucketEntry inputs bl c).ip_flag then
    { consolidateClassifyStep inputs master bl acc c with
        flagged := insert c (consolidateClassifyStep inputs master bl acc c).flagged }
  else consolidateClassifyStep inputs master bl acc c

/-- The change-tracking part of `consolidate_vocabularies`
(`src/corpora/output/consolidator.py`): loop over the buckets in insertion
order accumulating `added`/`updated`/`flagged`, then compute `removed` as the
baseline keys minus the bucket keys.  (Sorting, master metadata and the
backup-and-write of the master file are I/O outside the model.) -/
def consolidateSummary (inputs master : List VocabularyEntry) (bl : Option IPBlocklist) :
    ConsolidationSummary :=
  { (bucketCanonicals inputs).foldl (consolidateStep inputs master bl) ⟨∅, ∅, ∅, ∅⟩ with
      removed := (master.map (fun e => e.canonical)).toFinset \
        (bucketCanonicals inputs).toFinset }

/- ### Closed forms for the four summary sets -/

theorem consolidateStep_added (inputs master : List VocabularyEntry) (bl : Option IPBlocklist)
    (acc : ConsolidationSummary) (c : String) :
    (consolidateStep inputs master bl acc c).added =
      if c ∈ master.map (fun e => e.canonical) then acc.added else insert c acc.added := by
  unfold consolidateStep consolidateClassifyStep
  split <;> split <;> try split
  all_goals rfl

theorem consolidateStep_updated (inputs master : List VocabularyEntry) (bl : Option IPBlocklist)
    (acc : ConsolidationSummary) (c : String) :
    (consolidateStep inputs master bl acc c).updated =
      if c ∈ master.map (fun e => e.canonical) ∧
          eraseIpFlag (existingFor master c) ≠ eraseIpFlag (mergedBucketEntry inputs bl c)
      then insert c acc.updated else acc.updated := by
  unfold consolidateStep consolidateClassifyStep
  by_cases h1 : c ∈ master.map (fun e => e.canonical) <;>
    by_cases h2 : eraseIpFlag (existingFor master c) ≠ eraseIpFlag (mergedBucketEntry inputs bl c) <;>
      by_cases h3 : truthy (mergedBucketEntry inputs bl c).ip_flag = true <;>
        simp [h1, h2, h3]

theorem consolidateStep_flagged (inputs master : List VocabularyEntry) (bl : Option IPBlocklist)
    (acc : ConsolidationSummary) (c : String) :
    (consolidateStep inputs master bl acc c).flagged =
      if truthy (mergedBucketEntry inputs bl c).ip_flag then insert c acc.flagged
      else acc.flagged := by
  unfold consolidateStep consolidateClassifyStep
  by_cases h1 : c ∈ master.map (fun e => e.canonical) <;>
    by_cases h2 : eraseIpFlag (existingFor master c) ≠ eraseIpFlag (mergedBucketEntry inputs bl c) <;>
      by_cases h3 : truthy (mergedBucketEntry inputs bl c).ip_flag = true <;>
        simp [h1, h2, h3]

theorem foldl_consolidate_added (inputs master : List VocabularyEntry) (bl : Option IPBlocklist)
    (cs : List String) (acc : ConsolidationSummary) :
    (cs.foldl (consolidateStep inputs master bl) acc).added =
      acc.added ∪ (cs.filter (fun c => c ∉ master.map (fun e => e.canonical))).toFinset := by
  induction cs generalizing acc with
  | nil => simp
  | cons c cs ih =>
    rw [List.foldl_cons, ih, consolidateStep_added]
    by_cases h : c ∈ master.map (fun e => e.canonical)
    · rw [if_pos h, List.filter_cons_of_neg (by simpa using h)]
    · rw [if_neg h, List.filter_cons_of_pos (by simpa using h)]
      rw [List.toFinset_cons, Finset.insert_union, Finset.union_insert]

theorem foldl_consolidate_updated (inputs master : List VocabularyEntry) (bl : Option IPBlocklist)
    (cs : List String) (acc : ConsolidationSummary) :
    (cs.foldl (consolidateStep inputs master bl) acc).updated =
      acc.updated ∪ (cs.filter (fun c => c ∈ master.map (fun e => e.canonical) ∧
        eraseIpFlag (existingFor master c) ≠ eraseIpFlag (mergedBucketEntry inputs bl c))).toFinset := by
  induction cs generalizing acc with
  | nil => simp
  | cons c cs ih =>
    rw [List.foldl_cons, ih, consolidateStep_updated]
    by_cases h : c ∈ master.map (fun e => e.canonical) ∧
        eraseIpFlag (existingFor master c) ≠ eraseIpFlag (mergedBucketEntry inputs bl c)
    · rw [if_pos h, List.filter_cons_of_pos (by simpa using h)]
      rw [List.toFinset_cons, Finset.insert_union, Finset.union_insert]
    · rw [if_neg h, List.filter_cons_of_neg (by simpa using h)]

theorem foldl_consolidate_flagged (inputs master : List VocabularyEntry) (bl : Option IPBlocklist)
    (cs : List String) (acc : ConsolidationSummary) :
    (cs.foldl (consolidateStep inputs master bl) acc).flagged =
      acc.flagged ∪ (cs.filter (fun c => truthy (mergedBucketEntry inputs bl c).ip_flag)).toFinset := by
  induction cs generalizing acc with
  | nil => simp
  | cons c cs ih =>
    rw [List.foldl_cons, ih, consolidateStep_flagged]
    by_cases h : truthy (mergedBucketEntry inputs bl c).ip_flag = true
    · rw [if_pos h, List.filter_cons_of_pos (by simpa using h)]
      rw [List.toFinset_cons, Finset.insert_union, Finset.union_insert]
    · rw [if_neg h, List.filter_cons_of_neg (by simpa using h)]

theorem consolidate_added_eq (inputs master : List VocabularyEntry) (bl : Option IPBlocklist) :
    (consolidateSummary inputs master bl).added =
      ((bucketCanonicals inputs).filter
        (fun c => c ∉ master.map (fun e => e.canonical))).toFinset := by
  show ((bucketCanonicals inputs).foldl (consolidateStep inputs master bl) ⟨∅, ∅, ∅, ∅⟩).added = _
  rw [foldl_consolidate_added]
  exact Finset.empty_union _

theorem consolidate_updated_eq (inputs master : List VocabularyEntry) (bl : Option IPBlocklist) :
    (consolidateSummary inputs master bl).updated =
      ((bucketCanonicals inputs).filter (fun c => c ∈ master.map (fun e => e.canonical) ∧
        eraseIpFlag (existingFor master c) ≠ eraseIpFlag (mergedBucketEntry inputs bl c))).toFinset := by
  show ((bucketCanonicals inputs).foldl (consolidateStep inputs master bl) ⟨∅, ∅, ∅, ∅⟩).updated = _
  rw [foldl_consolidate_updated]
  exact Finset.empty_union _

theorem consolidate_flagged_eq (inputs master : List VocabularyEntry) (bl : Option IPBlocklist) :
    (consolidateSummary inputs master bl).flagged =
      ((bucketCanonicals inputs).filter
        (fun c => truthy (mergedBucketEntry inputs bl c).ip_flag)).toFinset := by
  show ((bucketCanonicals inputs).foldl (consolidateStep inputs master bl) ⟨∅, ∅, ∅, ∅⟩).flagged = _
  rw [foldl_consolidate_flagged]
  exact Finset.empty_union _

theorem consolidate_removed_eq (inputs master : List VocabularyEntry) (bl : Option IPBlocklist) :
    (consolidateSummary inputs master bl).removed =
      (master.map (fun e => e.canonical)).toFinset \ (bucketCanonicals inputs).toFinset := rfl

/-- C6: classification of change.  A bucket canonical absent from the master
baseline lands in `added`; one present in the baseline lands in `updated`
exactly when the merged entry differs from the baseline entry in some field
other than `ip_flag`; and `removed` is exactly the baseline canonicals absent
from every input bucket. -/
theorem consolidation_classification (inputs master : List VocabularyEntry)
    (bl : Option IPBlocklist) :
    (consolidateSummary inputs master bl).added =
        ((bucketCanonicals inputs).filter
          (fun c => c ∉ master.map (fun e => e.canonical))).toFinset ∧
      (consolidateSummary inputs master bl).updated =
        ((bucketCanonicals inputs).filter (fun c => c ∈ master.map (fun e => e.canonical) ∧
          eraseIpFlag (existingFor master c) ≠
            eraseIpFlag (mergedBucketEntry inputs bl c))).toFinset ∧
      (consolidateSummary inputs master bl).removed =
        (master.map (fun e => e.canonical)).toFinset \ (bucketCanonicals inputs).toFinset :=
  ⟨consolidate_added_eq inputs master bl, consolidate_updated_eq inputs master bl,
   consolidate_removed_eq inputs master bl⟩

/-- A new, classification-flagged entry: consolidating it lands its canonical
form in `added` and in `flagged` at once. -/
def entFlag : VocabularyEntry :=
  { id := "src-beholder", text := "Beholder", source := "doc1", genre := "fantasy",
    intent := "offensive", pos := "noun", axes := [], tags := [], category := "creature",
    canonical := "beholder", mood := "dark", energy := "", confidence := 0,
    secondary_intents := [], ip_flag := some "classification:ip-suspect" }

/-- C3 counterexample: the four summary sets are not pairwise disjoint — a
flagged new canonical is in both `added` and `flagged`. -/
theorem summary_disjoint_cex :
    "beholder" ∈ (consolidateSummary [entFlag] [] none).added ∧
      "beholder" ∈ (consolidateSummary [entFlag] [] none).flagged := by decide

/-- C3 amended: `added`, `updated` and `removed` are pairwise disjoint and
`flagged` is disjoint from `removed`; `flagged` may overlap `added` and
`updated` (it is independent of the add/update classification). -/
theorem summary_partial_disjoint (inputs master : List VocabularyEntry)
    (bl : Option IPBlocklist) :
    Disjoint (consolidateSummary inputs master bl).added
        (consolidateSummary inputs master bl).updated ∧
      Disjoint (consolidateSummary inputs master bl).added
        (consolidateSummary inputs master bl).removed ∧
      Disjoint (consolidateSummary inputs master bl).updated
        (consolidateSummary inputs master bl).removed ∧
      Disjoint (consolidateSummary inputs master bl).removed
        (consolidateSummary inputs master bl).flagged := by
  rw [consolidate_added_eq, consolidate_updated_eq, consolidate_removed_eq,
    consolidate_flagged_eq]
  refine ⟨?_, ?_, ?_, ?_⟩
  · rw [Finset.disjoint_left]
    intro c hc1 hc2
    rw [List.mem_toFinset, List.mem_filter] at hc1 hc2
    have h1 := of_decide_eq_true hc1.2
    have h2 := of_decide_eq_true hc2.2
    exact h1 h2.1
  · rw [Finset.disjoint_left]
    intro c hc1 hc2
    rw [List.mem_toFinset, List.mem_filter] at hc1
    rw [Finset.mem_sdiff, List.mem_toFinset] at hc2
    exact hc2.2 (List.mem_toFinset.mpr hc1.1)
  · rw [Finset.disjoint_left]
    intro c hc1 hc2
    rw [List.mem_toFinset, List.mem_filter] at hc1
    rw [Finset.mem_sdiff, List.mem_toFinset] at hc2
    exact hc2.2 (List.mem_toFinset.mpr hc1.1)
  · rw [Finset.disjoint_right]
    intro c hc1 hc2
    rw [List.mem_toFinset, List.mem_filter] at hc1
    rw [Finset.mem_sdiff, List.mem_toFinset] at hc2
    exact hc2.2 (List.mem_toFinset.mpr hc1.1)

/- ### Manifest store (src/corpora/output/manifest.py) -/

/-- Translation of `ManifestEntry`: tracking record for one processed document
(`processed_at` is wall-clock data, outside the model). -/
structure ManifestEntry where
  source_path : String
  source_hash : String
  vocab_path : String
  term_count : Nat
deriving DecidableEq

/-- Translation of `CorporaManifest`: the `documents` dict keyed by source path, modelled as
an insertion-ordered association list with unique keys (`schema_version` and
`last_updated` carry no logic). -/
structure CorporaManifest where
  documents : List (String × ManifestEntry)
deriving DecidableEq

/-- Python dict assignment `d[k] = v`: replace in place when the key exists,
append otherwise. -/
def dictInsert (d : List (String × ManifestEntry)) (k : String) (v : ManifestEntry) :
    List (String × ManifestEntry) :=
  if d.any (fun p => p.1 == k) then d.map (fun p => if p.1 == k then (k, v) else p)
  else d ++ [(k, v)]

/-- Lookup `self.documents[key]` (`None` when absent). -/
def CorporaManifest.lookupDoc (m : CorporaManifest) (k : String) : Option ManifestEntry :=
  m.documents.lookup k

/-- Translation of `CorporaManifest.update_entry`: insert/replace the entry for `source`,
recording the current content hash (the hash function abstracts
`compute_file_hash`). -/
def CorporaManifest.updateEntry (m : CorporaManifest) (hashOf : String → String)
    (source vocab : String) (termCount : Nat) : CorporaManifest :=
  ⟨dictInsert m.documents source ⟨source, hashOf source, vocab, termCount⟩⟩

/-- Translation of `CorporaManifest.needs_processing`: true when the path is absent or its
freshly computed hash differs from the stored one. -/
def CorporaManifest.needsProcessing (m : CorporaManifest) (hashOf : String → String)
    (source : String) : Bool :=
  match m.documents.lookup source with
  | none => true
  | some e => hashOf source != e.source_hash

/-- The failure `CorporaManifest.load` surfaces on a malformed manifest file
(`json.JSONDecodeError` / pydantic `ValidationError` in the source, left to
propagate to the caller). -/
inductive ManifestLoadError where
  | corrupt
deriving DecidableEq

/-- Translation of `CorporaManifest.load`: the file system is abstracted as `Option String`
(the file's content when the path exists) and JSON-plus-schema parsing as a
function `String → Option CorporaManifest`.  A missing path yields a fresh
empty manifest; an unparsable file yields the error. -/
def CorporaManifest.load (parse : String → Option CorporaManifest) (file : Option String) :
    Except ManifestLoadError CorporaManifest :=
  match file with
  | none => Except.ok ⟨[]⟩
  | some content =>
    match parse content with
    | some m => Except.ok m
    | none => Except.error ManifestLoadError.corrupt

/-- C5: `load` returns an empty manifest (not an error) when the path does not
exist, surfaces a corrupt-manifest error to the caller when the file exists
but does not parse as the schema (never a silent reset to empty), and returns
the parsed manifest when parsing succeeds. -/
theorem manifest_load_spec (parse : String → Option CorporaManifest) :
    CorporaManifest.load parse none = Except.ok ⟨[]⟩ ∧
      (∀ c, parse c = none →
        CorporaManifest.load parse (some c) = Except.error ManifestLoadError.corrupt) ∧
      (∀ c m, parse c = some m → CorporaManifest.load parse (some c) = Except.ok m) := by
  refine ⟨rfl, ?_, ?_⟩
  · intro c hc
    simp [CorporaManifest.load, hc]
  · intro c m hc
    simp [CorporaManifest.load, hc]

/-- Witness for C5 with a parser that rejects the content. -/
theorem manifest_load_spec_witness :
    CorporaManifest.load (fun _ => none) (some "not json") =
      Except.error ManifestLoadError.corrupt :=
  (manifest_load_spec (fun _ => none)).2.1 "not json" rfl

/- ### Batch processor (src/corpora/batch/processor.py) -/

/-- Translation of `DocumentStatus`: the three terminal states. -/
inductive DocumentStatus where
  | success
  | failed
  | skipped
deriving DecidableEq

/-- Translation of `DocumentResult` (without the wall-clock `duration_seconds`). -/
structure DocumentResult where
  source_path : String
  status : DocumentStatus
  term_count : Nat := 0
  vocab_path : Option String := none
  error : Option String := none
deriving DecidableEq

/-- The external collaborators of `_process_single_document`: the parser
(block texts, or an exception), the term extractor, the per-term classifier
(`none` models a swallowed per-term exception), and `compute_file_hash`. -/
structure PipelineEnv where
  parseBlocks : String → Except String (List String)
  extract : String → List String
  classify : String → Option VocabularyEntry
  hashOf : String → String

/-- Python `str.strip()`: drop leading and trailing whitespace. -/
def pyStrip (s : String) : String :=
  String.mk (((s.data.dropWhile Char.isWhitespace).reverse.dropWhile Char.isWhitespace).reverse)

/-- Translation of `BatchProcessor._process_single_document`: parse; join non-empty block
texts; empty stripped text → SUCCESS with 0 terms and no vocab file; no
candidates → likewise; otherwise classify (dropping failed terms) and write
the vocabulary file (path derived from the source name; blocklist flagging
does not change counts and is omitted here). -/
def processSingleDocument (env : PipelineEnv) (source : String) : DocumentResult :=
  match env.parseBlocks source with
  | Except.error e => { source_path := source, status := DocumentStatus.failed, error := some e }
  | Except.ok blocks =>
    let fullText := String.intercalate "\n\n" (blocks.filter (fun b => b != ""))
    if pyStrip fullText = "" then
      { source_path := source, status := DocumentStatus.success }
    else if env.extract fullText = [] then
      { source_path := source, status := DocumentStatus.success }
    else
      { source_path := source, status := DocumentStatus.success,
        term_count := ((env.extract fullText).filterMap env.classify).length,
        vocab_path := some (source ++ ".vocab.json") }

/-- Translation of `BatchProcessor._process_with_retry`: one retry on FAILED (with a
deterministic environment the second attempt repeats the first; the control
flow is the source's). -/
def processWithRetry (env : PipelineEnv) (source : String) : DocumentResult :=
  if (processSingleDocument env source).status = DocumentStatus.failed then
    processSingleDocument env source
  else processSingleDocument env source

/-- The manifest update guard of `BatchProcessor.process` (lines 247-254):
update and save only when the result is SUCCESS and carries a vocab path.
`save` makes the in-memory manifest the on-disk state, so a single manifest
value models both. -/
def manifestAfter (env : PipelineEnv) (m : CorporaManifest) (r : DocumentResult) :
    CorporaManifest :=
  if r.status = DocumentStatus.success then
    match r.vocab_path with
    | some v => CorporaManifest.updateEntry m env.hashOf r.source_path v r.term_count
    | none => m
  else m

/-- The processing loop: each completed document yields its result together
with the manifest state on disk at the moment it is yielded.  (The thread
pool's completion order is abstracted to the given document order.) -/
def processSteps (env : PipelineEnv) : CorporaManifest → List String →
    List (DocumentResult × CorporaManifest)
  | _, [] => []
  | m, d :: ds =>
    (processWithRetry env d, manifestAfter env m (processWithRetry env d)) ::
      processSteps env (manifestAfter env m (processWithRetry env d)) ds

/-- The SKIPPED results yielded up front by `BatchProcessor.process`:
documents that `needs_processing` rejects (unless `force_reprocess`), each
paired with the untouched manifest. -/
def skippedResults (env : PipelineEnv) (m0 : CorporaManifest) (docs : List String)
    (force : Bool) : List (DocumentResult × CorporaManifest) :=
  (docs.filter (fun d => !(force || CorporaManifest.needsProcessing m0 env.hashOf d))).map
    (fun d => ({ source_path := d, status := DocumentStatus.skipped }, m0))

/-- The `to_process` list of `BatchProcessor.process`. -/
def toProcess (env : PipelineEnv) (m0 : CorporaManifest) (docs : List String)
    (force : Bool) : List String :=
  docs.filter (fun d => force || CorporaManifest.needsProcessing m0 env.hashOf d)

/-- Translation of `BatchProcessor.process`: unchanged documents (per `needs_processing`,
unless `force_reprocess`) are yielded as SKIPPED first with the manifest
untouched; the rest are processed with retry, the manifest saved after each. -/
def processModel (env : PipelineEnv) (m0 : CorporaManifest) (docs : List String)
    (force : Bool) : List (DocumentResult × CorporaManifest) :=
  skippedResults env m0 docs force ++ processSteps env m0 (toProcess env m0 docs force)

/- ### Dict and manifest-key lemmas -/

theorem lookup_dictInsert (d : List (String × ManifestEntry)) (k : String) (v : ManifestEntry) :
    (dictInsert d k v).lookup k = some v := by
  induction d with
  | nil => simp [dictInsert, List.lookup]
  | cons p ds ih =>
    unfold dictInsert
    cases hpk : p.1 == k with
    | true =>
      rw [if_pos (by simp [List.any_cons, hpk])]
      rw [List.map_cons, if_pos hpk]
      simp [List.lookup]
    | false =>
      have hstep : (if (p :: ds).any (fun q => q.1 == k) = true
          then (p :: ds).map (fun q => if q.1 == k then (k, v) else q)
          else (p :: ds) ++ [(k, v)]) = p :: dictInsert ds k v := by
        rw [List.any_cons, hpk, Bool.false_or]
        unfold dictInsert
        by_cases hds : ds.any (fun q => q.1 == k) = true
        · rw [if_pos hds, if_pos hds, List.map_cons, if_neg (by simp [hpk])]
        · rw [if_neg hds, if_neg hds, List.cons_append]
      rw [hstep]
      have hne : p.1 ≠ k := beq_eq_false_iff_ne.mp hpk
      have hbeq : (k == p.1) = false := beq_eq_false_iff_ne.mpr (fun h => hne h.symm)
      simp only [List.lookup, hbeq]
      exact ih

/-- The key set of the `documents` dict. -/
def manifestKeys (m : CorporaManifest) : Finset String :=
  (m.documents.map (fun p => p.1)).toFinset

theorem keys_dictInsert (d : List (String × ManifestEntry)) (k : String) (v : ManifestEntry) :
    ((dictInsert d k v).map (fun p => p.1)).toFinset =
      insert k (d.map (fun p => p.1)).toFinset := by
  unfold dictInsert
  by_cases h : d.any (fun p => p.1 == k) = true
  · rw [if_pos h]
    have hmap : (d.map (fun p => if p.1 == k then (k, v) else p)).map (fun p => p.1) =
        d.map (fun p => p.1) := by
      rw [List.map_map]
      refine List.map_congr_left ?_
      intro p _
      by_cases hp : (p.1 == k) = true
      · simp only [Function.comp, hp, if_pos]
        exact (eq_of_beq hp).symm
      · simp only [Function.comp, hp]
        rw [if_neg (by simp [hp])]
    rw [hmap]
    obtain ⟨p, hp, hpk⟩ := List.any_eq_true.mp h
    have hk : k ∈ d.map (fun p => p.1) := by
      rw [List.mem_map]
      exact ⟨p, hp, (eq_of_beq hpk)⟩
    rw [Finset.insert_eq_self.mpr (List.mem_toFinset.mpr hk)]
  · rw [if_neg h, List.map_append, List.toFinset_append]
    show (d.map (fun p => p.1)).toFinset ∪ [k].toFinset = _
    rw [List.toFinset_cons, List.toFinset_nil, insert_emptyc_eq]
    rw [Finset.union_comm, Finset.insert_eq]

/-- Whether a result is a SUCCESS that produced a vocabulary file (the exact
condition under which the source updates the manifest). -/
def successWithVocab (r : DocumentResult) : Bool :=
  decide (r.status = DocumentStatus.success) && r.vocab_path.isSome

theorem manifestAfter_keys (env : PipelineEnv) (m : CorporaManifest) (r : DocumentResult) :
    manifestKeys (manifestAfter env m r) =
      manifestKeys m ∪ (if successWithVocab r then {r.source_path} else ∅) := by
  unfold manifestAfter successWithVocab
  by_cases hs : r.status = DocumentStatus.success
  · rw [if_pos hs]
    cases hv : r.vocab_path with
    | none =>
      simp [hs, hv]
    | some v =>
      show manifestKeys (CorporaManifest.updateEntry m env.hashOf r.source_path v r.term_count) = _
      unfold CorporaManifest.updateEntry manifestKeys
      rw [keys_dictInsert]
      rw [if_pos (by simp [hs, hv])]
      rw [Finset.union_comm, Finset.insert_eq]
  · rw [if_neg hs]
    rw [if_neg (by simp [hs])]
    simp


/- ### Per-step manifest lemmas for the processing loop -/

theorem processSteps_cons (env : PipelineEnv) (m : CorporaManifest) (d : String)
    (ds : List String) :
    processSteps env m (d :: ds) =
      (processWithRetry env d, manifestAfter env m (processWithRetry env d)) ::
        processSteps env (manifestAfter env m (processWithRetry env d)) ds := rfl

theorem processSteps_lookup (env : PipelineEnv) (docs : List String) :
    ∀ (m : CorporaManifest), ∀ p ∈ processSteps env m docs,
      p.1.status = DocumentStatus.success → ∀ v, p.1.vocab_path = some v →
        CorporaManifest.lookupDoc p.2 p.1.source_path =
          some ⟨p.1.source_path, env.hashOf p.1.source_path, v, p.1.term_count⟩ := by
  induction docs with
  | nil =>
    intro m p hp
    simp [processSteps] at hp
  | cons d ds ih =>
    intro m p hp
    rw [processSteps_cons] at hp
    rcases List.mem_cons.mp hp with rfl | hp2
    · intro hs v hv
      show CorporaManifest.lookupDoc (manifestAfter env m (processWithRetry env d)) _ = _
      unfold manifestAfter
      rw [if_pos hs, hv]
      unfold CorporaManifest.updateEntry CorporaManifest.lookupDoc
      exact lookup_dictInsert _ _ _
    · exact ih _ p hp2

theorem filter_swv_cons (r : DocumentResult) (m2 : CorporaManifest)
    (t : List (DocumentResult × CorporaManifest)) :
    (((r, m2) :: t).filter (fun q => successWithVocab q.1)) =
      if successWithVocab r = true then (r, m2) :: t.filter (fun q => successWithVocab q.1)
      else t.filter (fun q => successWithVocab q.1) := by
  rw [List.filter_cons]

theorem processSteps_keys (env : PipelineEnv) (docs : List String) :
    ∀ (m : CorporaManifest) (i : Nat) (p : DocumentResult × CorporaManifest),
      (processSteps env m docs)[i]? = some p →
      manifestKeys p.2 = manifestKeys m ∪
        ((((processSteps env m docs).take (i+1)).filter
          (fun q => successWithVocab q.1)).map (fun q => q.1.source_path)).toFinset := by
  induction docs with
  | nil =>
    intro m i p hp
    simp [processSteps] at hp
  | cons d ds ih =>
    intro m i p hp
    rw [processSteps_cons] at hp ⊢
    cases i with
    | zero =>
      rw [List.getElem?_cons_zero] at hp
      injection hp with hp
      subst hp
      rw [List.take_succ_cons, List.take_zero]
      show manifestKeys (manifestAfter env m (processWithRetry env d)) = _
      rw [manifestAfter_keys, filter_swv_cons]
      by_cases hsw : successWithVocab (processWithRetry env d) = true
      · rw [if_pos hsw, if_pos hsw, List.filter_nil, List.map_cons, List.map_nil]
        simp [Finset.insert_eq]
      · rw [if_neg hsw, if_neg hsw, List.filter_nil, List.map_nil]
        simp
    | succ j =>
      rw [List.getElem?_cons_succ] at hp
      rw [List.take_succ_cons]
      rw [ih _ j p hp, manifestAfter_keys, filter_swv_cons]
      by_cases hsw : successWithVocab (processWithRetry env d) = true
      · rw [if_pos hsw, if_pos hsw, List.map_cons, List.toFinset_cons]
        rw [Finset.union_assoc]
        congr 1
      · rw [if_neg hsw, if_neg hsw, Finset.union_empty]

theorem skippedResults_facts (env : PipelineEnv) (m0 : CorporaManifest) (docs : List String)
    (force : Bool) :
    ∀ p ∈ skippedResults env m0 docs force,
      p.1.status = DocumentStatus.skipped ∧ p.2 = m0 ∧ successWithVocab p.1 = false := by
  intro p hp
  obtain ⟨d, -, rfl⟩ := List.mem_map.mp hp
  exact ⟨rfl, rfl, rfl⟩

theorem skippedResults_filter (env : PipelineEnv) (m0 : CorporaManifest) (docs : List String)
    (force : Bool) (k : Nat) :
    ((skippedResults env m0 docs force).take k).filter (fun p => successWithVocab p.1) = [] := by
  rw [List.filter_eq_nil_iff]
  intro p hp
  obtain ⟨-, -, hsw⟩ := skippedResults_facts env m0 docs force p (List.take_subset _ _ hp)
  simp [hsw]

/-- C2 amended: every yielded SUCCESS that produced a vocabulary file has its
up-to-date entry in the on-disk manifest at the moment it is yielded; and at
every step the manifest's key set is exactly the initial keys plus the sources
of the successes-with-vocab yielded so far.  SUCCESS results with no
vocabulary file (no extractable text, or no candidate terms) leave the
manifest unchanged. -/
theorem batch_manifest_per_success (env : PipelineEnv) (m0 : CorporaManifest)
    (docs : List String) (force : Bool) :
    (∀ p ∈ processModel env m0 docs force,
        p.1.status = DocumentStatus.success → ∀ v, p.1.vocab_path = some v →
          CorporaManifest.lookupDoc p.2 p.1.source_path =
            some ⟨p.1.source_path, env.hashOf p.1.source_path, v, p.1.term_count⟩) ∧
      ∀ i, ∀ p : DocumentResult × CorporaManifest,
        (processModel env m0 docs force)[i]? = some p →
        manifestKeys p.2 = manifestKeys m0 ∪
          ((((processModel env m0 docs force).take (i+1)).filter
            (fun q => successWithVocab q.1)).map (fun q => q.1.source_path)).toFinset := by
  constructor
  · intro p hp hs v hv
    rcases List.mem_append.mp hp with hsk | hpr
    · obtain ⟨hstat, -, -⟩ := skippedResults_facts env m0 docs force p hsk
      rw [hstat] at hs
      exact absurd hs (by simp)
    · exact processSteps_lookup env _ m0 p hpr hs v hv
  · intro i p hp
    unfold processModel at hp ⊢
    rw [List.getElem?_append] at hp
    rw [List.take_append_eq_append_take, List.filter_append]
    by_cases hcase : i < (skippedResults env m0 docs force).length
    · rw [if_pos hcase] at hp
      have h2 : p.2 = m0 := by
        have hmem : p ∈ skippedResults env m0 docs force := by
          obtain ⟨h, hget⟩ := List.getElem?_eq_some.mp hp
          rw [← hget]
          exact List.getElem_mem h
        exact (skippedResults_facts env m0 docs force p hmem).2.1
      rw [h2, skippedResults_filter, List.nil_append,
        show (i+1) - (skippedResults env m0 docs force).length = 0 from by omega,
        List.take_zero, List.filter_nil, List.map_nil, List.toFinset_nil, Finset.union_empty]
    · rw [if_neg hcase] at hp
      push_neg at hcase
      rw [processSteps_keys env _ m0 _ p hp]
      have htake : List.take (i+1) (skippedResults env m0 docs force) =
          skippedResults env m0 docs force :=
        List.take_of_length_le (by omega)
      have hfsk : ((skippedResults env m0 docs force).filter
          (fun q => successWithVocab q.1)) = [] := by
        have := skippedResults_filter env m0 docs force
          (skippedResults env m0 docs force).length
        rwa [List.take_length] at this
      have hidx : (i+1) - (skippedResults env m0 docs force).length =
          (i - (skippedResults env m0 docs force).length) + 1 := by omega
      rw [htake, hfsk, List.nil_append, hidx]

/-- An environment whose parser yields no text blocks (a document with no
extractable text). -/
def cexEnv : PipelineEnv :=
  { parseBlocks := fun _ => Except.ok []
    extract := fun _ => []
    classify := fun _ => none
    hashOf := fun _ => "h" }

/-- C2 counterexample: a document with no extractable text is yielded as
SUCCESS with 0 terms, yet the manifest on disk when it is yielded (and ever
after) holds no entry for it — the source only updates the manifest when the
result also carries a vocab path. -/
theorem batch_manifest_cex :
    processModel cexEnv ⟨[]⟩ ["a.pdf"] true =
        [({ source_path := "a.pdf", status := DocumentStatus.success, term_count := 0,
            vocab_path := none, error := none }, ⟨[]⟩)] ∧
      CorporaManifest.lookupDoc (⟨[]⟩ : CorporaManifest) "a.pdf" = none :=
  ⟨rfl, rfl⟩

/-- An environment that produces one classified term per document. -/
def witEnv : PipelineEnv :=
  { parseBlocks := fun _ => Except.ok ["text"]
    extract := fun _ => ["fireball"]
    classify := fun _ => some entA
    hashOf := fun _ => "h" }

/-- Witness for C2's amended theorem: after the single successful document
with a vocabulary file, the on-disk manifest holds its entry. -/
theorem batch_manifest_per_success_witness :
    CorporaManifest.lookupDoc
        (⟨[("b.pdf", ⟨"b.pdf", "h", "b.pdf.vocab.json", 1⟩)]⟩ : CorporaManifest) "b.pdf" =
      some ⟨"b.pdf", "h", "b.pdf.vocab.json", 1⟩ :=
  (batch_manifest_per_success witEnv ⟨[]⟩ ["b.pdf"] true).1
    (⟨"b.pdf", DocumentStatus.success, 1, some "b.pdf.vocab.json", none⟩,
      ⟨[("b.pdf", ⟨"b.pdf", "h", "b.pdf.vocab.json", 1⟩)]⟩)
    (by decide) rfl "b.pdf.vocab.json" rfl
